import Mathlib

/-!
Verification of the cic2nf repository: a shallow embedding of `src/cic.rs`
and `src/nf.rs` (the CSV record reader, label indexing, timestamp
normalization, bidirectional flow expansion, duration clamping, batch-wide
width computation, duration formatting, and label-based categorization),
together with theorems settling the specification claims.

Modelling conventions:
* Rust machine integers are modelled as `Nat`/`Int` with explicit `% 2^w`
  where overflow matters (`u8` label indices wrap with `% 256`; the
  `i32 as u32` cast is `% 2^32`).
* External library calls (Rust `str::parse`, chrono's
  `NaiveDateTime::parse_from_str`) are abstracted as parser oracles
  collected in a `Parsers` structure; everything written in the repository
  itself is translated concretely.
* Panics (`unwrap`, array index out of bounds, the unrecognized-timestamp
  `panic!`) are modelled with `Option`: `none` is a fatal abort.
* A chrono `NaiveDateTime`/`Duration` is a point/span value; we model the
  timestamp as an abstract `Int` and the duration as its signed count of
  microseconds (`i64` in chrono's API, via `num_microseconds`).
-/

namespace Cic2nf

/-- `cic.rs`: `Label { index: u8, name: String }`. `index` is 0 for no
index, 1 for benign; `u8` arithmetic is modelled as `Nat` with explicit
wrapping where the source casts. -/
structure Label where
  index : Nat
  name : String

/-- `cic.rs`: `FlowTimeStamp { time: NaiveDateTime }`; the chrono value is
abstract, modelled as an integer instant. -/
structure FlowTimeStamp where
  time : Int

/-- `cic.rs`: `CICRecord`. For each pair-type field, `.1` is forward
(source code index 0) and `.2` is backward (index 1). `duration` is the
signed microsecond count of the chrono `Duration`. -/
structure CICRecord where
  src_ip : String
  src_port : Nat
  dst_ip : String
  dst_port : Nat
  protocol : Nat
  timestamp : FlowTimeStamp
  duration : Int
  n_packet : Int × Int
  n_bytes_packet : Int × Int
  label : Label

/-- `nf.rs`: `Flags` — eight TCP flag bits. -/
structure Flags where
  cwr : Bool
  ece : Bool
  urg : Bool
  ack : Bool
  psh : Bool
  rst : Bool
  syn : Bool
  fin : Bool

/-- `nf.rs`: `Flags::new()` — all flags unset. -/
def Flags.new : Flags :=
  { cwr := false, ece := false, urg := false, ack := false,
    psh := false, rst := false, syn := false, fin := false }

/-- `nf.rs`: `NetFlow`. `duration` is in microseconds, `duration_str_width`
is the `u8` rendering width (digit counts of `i64` values stay far below
256, so no wrap is modelled), and `qos` is the source's `f32` field which
is the constant `0.0` and never computed with, modelled as `Nat`. -/
structure NetFlow where
  timestamp : FlowTimeStamp
  duration : Int
  duration_str_width : Nat
  protocol : Nat
  src_ip : String
  src_port : Nat
  dst_ip : String
  dst_port : Nat
  flags : Flags
  qos : Nat
  n_packet : Nat
  n_bytes_packet : Nat
  n_flow : Nat
  label : Label

/-- Rust's `i32 as u32` cast: reinterpret two's complement, i.e. reduce
modulo `2^32`. -/
def toU32 (x : Int) : Nat :=
  (x % 4294967296).toNat

/-- Rust `i64` division truncates toward zero. -/
def i64Div (a b : Int) : Int :=
  Int.tdiv a b

/-- Rust `i64` remainder pairs with truncating division. -/
def i64Mod (a b : Int) : Int :=
  Int.tmod a b

/-- `nf.rs`: the duration clamp at the top of `NetFlow::new` (lines
76-85). Returns the clamped duration together with the number of warning
events printed: a duration of exactly `-1` microsecond hits the first
branch, any duration still negative after that hits the second. -/
def clampDuration (d : Int) : Int × Nat :=
  let s1 : Int × Nat := if d = -1 then (0, 1) else (d, 0)
  if s1.1 < 0 then (0, s1.2 + 1) else s1

/-- `nf.rs`: `NetFlow::new` — one `CICRecord` expands to the forward flow
`nf1` (source as written, forward counts `[0]`) and the reverse flow `nf2`
(endpoints swapped, backward counts `[1]`); both share the clamped
duration, timestamp, protocol and label. Packet/byte counts are `i32`
values cast `as u32`. -/
def netflow_new (cr : CICRecord) : NetFlow × NetFlow :=
  ({ timestamp := cr.timestamp
   , duration := (clampDuration cr.duration).1
   , duration_str_width := 0
   , protocol := cr.protocol
   , src_ip := cr.src_ip
   , src_port := cr.src_port
   , dst_ip := cr.dst_ip
   , dst_port := cr.dst_port
   , flags := Flags.new
   , qos := 0
   , n_packet := toU32 cr.n_packet.1
   , n_bytes_packet := toU32 cr.n_bytes_packet.1
   , n_flow := 1
   , label := cr.label },
   { timestamp := cr.timestamp
   , duration := (clampDuration cr.duration).1
   , duration_str_width := 0
   , protocol := cr.protocol
   , src_ip := cr.dst_ip
   , src_port := cr.dst_port
   , dst_ip := cr.src_ip
   , dst_port := cr.src_port
   , flags := Flags.new
   , qos := 0
   , n_packet := toU32 cr.n_packet.2
   , n_bytes_packet := toU32 cr.n_bytes_packet.2
   , n_flow := 1
   , label := cr.label })

/-- `nf.rs`: `NetFlow::duration_ms` — chrono `num_milliseconds`, the total
microsecond count divided by 1000 truncating toward zero. -/
def duration_ms (nf : NetFlow) : Int :=
  i64Div nf.duration 1000

/-- Fuel-indexed body of the digit-count loop of
`get_n_digit_in_decimal`; the fuel only forces termination, `x` itself is
always enough of it. -/
def digitLoopAux : Nat → Nat → Nat
  | 0, _ => 0
  | fuel + 1, x => if x = 0 then 0 else digitLoopAux fuel (x / 10) + 1

/-- The `while x != 0 { x /= 10; n += 1 }` loop of
`get_n_digit_in_decimal`, on the absolute value of the argument. -/
def digitLoop (x : Nat) : Nat :=
  digitLoopAux x x

/-- `nf.rs`: `get_n_digit_in_decimal` — 1 for zero, otherwise the number
of base-10 digits (the source loops with truncating `i64` division, which
counts the digits of the absolute value). -/
def get_n_digit_in_decimal (x : Int) : Nat :=
  if x = 0 then 1 else digitLoop x.natAbs

/-- Fuel-indexed base-10 digit list (least significant first) of a
positive number, used to model Rust's decimal `Display` for integers. -/
def natDigitsRevAux : Nat → Nat → List Char
  | 0, _ => []
  | fuel + 1, x => if x = 0 then [] else Char.ofNat (48 + x % 10) :: natDigitsRevAux fuel (x / 10)

/-- Decimal rendering of a `Nat`, as Rust's `Display` for unsigned
integers produces it. -/
def natRepr (n : Nat) : String :=
  if n = 0 then "0" else String.mk (natDigitsRevAux n n).reverse

/-- Decimal rendering of an `Int`, as Rust's `Display` for `i64` produces
it: a `-` sign followed by the digits of the absolute value. -/
def intRepr (i : Int) : String :=
  if i < 0 then "-" ++ natRepr i.natAbs else natRepr i.natAbs

/-- Rust's `format!("{tmp:>w$}")`: pad on the left with spaces up to width
`w`; a string already at least `w` long is returned unchanged (never
truncated). -/
def rightAlign (w : Nat) (s : String) : String :=
  if w ≤ s.length then s else String.mk (List.replicate (w - s.length) ' ') ++ s

/-- The unpadded duration string `"{s}.{ms}"` built by
`NetFlow::format_duration` from a millisecond value: seconds, a dot, and
the millisecond remainder with no zero padding. -/
def format_duration_raw (ms : Int) : String :=
  intRepr (i64Div ms 1000) ++ "." ++ intRepr (i64Mod ms 1000)

/-- `nf.rs`: `NetFlow::format_duration` — the raw `"{s}.{ms}"` string
right-aligned to the record's `duration_str_width`. -/
def format_duration (nf : NetFlow) : String :=
  rightAlign nf.duration_str_width (format_duration_raw (duration_ms nf))

/-- `nf.rs`: the width computation in `cic_to_nf_batch` (lines 196-199):
digit count of the maximal millisecond duration plus one, plus one more
when that maximum is below 1000 ms. -/
def duration_width (maxMs : Int) : Nat :=
  get_n_digit_in_decimal maxMs + 1 + (if maxMs < 1000 then 1 else 0)

/-- The flow pairs produced by the loop of `cic_to_nf_batch`, in push
order: `nf1` then `nf2` for each input record in turn. -/
def pairList : List CICRecord → List NetFlow
  | [] => []
  | r :: rest => (netflow_new r).1 :: (netflow_new r).2 :: pairList rest

/-- `nf.rs`: `cic_to_nf_batch` — expand every record into its two flows
while tracking the running maximum of their millisecond durations (seeded
with 0), then stamp every produced flow with the batch-wide width. The
source returns `Ok(storage)`; no failure path exists, so no `Option` is
needed. -/
def cic_to_nf_batch (cic_records : List CICRecord) : List NetFlow :=
  let folded : List NetFlow × Int :=
    cic_records.foldl
      (fun acc r =>
        let pair := netflow_new r
        (acc.1 ++ [pair.1, pair.2],
         max (max acc.2 (duration_ms pair.1)) (duration_ms pair.2)))
      ([], 0)
  let w : Nat := duration_width folded.2
  folded.1.map (fun nf => { nf with duration_str_width := w })

/-- The running maximum computed by the batch loop, as a standalone
function: the fold of `max` over the millisecond durations of all
produced flows, seeded with 0. -/
def maxMsOf (cic_records : List CICRecord) : Int :=
  (pairList cic_records).foldl (fun m nf => max m (duration_ms nf)) 0

/-- `nf.rs`: the body of the loop of `categorize_nf`: push the flow into
group `(index - 1) as usize`. The label index is a `u8`, so index 0
underflows: that is a panic in a debug build, and in a release build it
wraps to 255, which is out of range for every batch with at most 255
labels; both are modelled as failure (`none`), as is an out-of-range
group index (a `Vec` indexing panic). -/
def categorize_step (gs : List (List NetFlow)) (nf : NetFlow) : Option (List (List NetFlow)) :=
  if nf.label.index = 0 then none
  else if h : nf.label.index - 1 < gs.length then
    some (gs.set (nf.label.index - 1) (gs[nf.label.index - 1] ++ [nf]))
  else none

/-- `nf.rs`: `categorize_nf` — start from `label_library.len()` empty
groups and push every flow into the group selected by its label index. -/
def categorize_nf (nf_records : List NetFlow) (label_library : List (String × Nat)) :
    Option (List (List NetFlow)) :=
  nf_records.foldlM categorize_step (List.replicate label_library.length [])

/-- Rust's `str::trim`: drop leading and trailing whitespace (the data
this tool consumes is ASCII; the whitespace set is the usual space, tab,
carriage return and line feed). -/
def rustTrim (s : String) : String :=
  String.mk (((s.data.dropWhile Char.isWhitespace).reverse.dropWhile Char.isWhitespace).reverse)

/-- The external parsing routines used by `cic.rs`, abstracted as oracles:
`parseU32`/`parseU8`/`parseI64` are Rust's `str::parse` at the
corresponding types, `parseF32asI32` is `parse::<f32>()` followed by the
saturating `as i32` cast, and `parseTime s i` is chrono's
`NaiveDateTime::parse_from_str(s, TIME_FORMATS[i])` (the six format
strings live in the library call; only the index is observable here).
`none` models a parse failure. -/
structure Parsers where
  parseU32 : String → Option Nat
  parseU8 : String → Option Nat
  parseI64 : String → Option Int
  parseF32asI32 : String → Option Int
  parseTime : String → Nat → Option Int

/-- `cic.rs`: `TIME_FORMATS` has six entries. -/
def timeFormatsLen : Nat := 6

/-- `cic.rs`: the AM/PM handling at the top of `str_to_timestamp` (lines
112-116): append `" am"` or `" pm"` to the raw string when a hint is
supplied. -/
def appendHint (s : String) (is_am : Option Bool) : String :=
  match is_am with
  | some true => s ++ " am"
  | some false => s ++ " pm"
  | none => s

/-- `cic.rs`: `CICRecord::str_to_timestamp` — append the AM/PM marker,
try the guessed format first, and on failure scan all six formats in
order skipping the guess; return the parsed time with the index of the
format that matched. `none` models the `panic!` when nothing matches
(and the array-indexing panic for a guess outside `0..6`, which the
reader never produces). -/
def str_to_timestamp (P : Parsers) (cic_timestamp_str : String) (is_am : Option Bool)
    (guessed_time_format_index : Nat) : Option (Int × Nat) :=
  let time_str := appendHint cic_timestamp_str is_am
  if guessed_time_format_index < timeFormatsLen then
    match P.parseTime time_str guessed_time_format_index with
    | some time => some (time, guessed_time_format_index)
    | none =>
        (List.range timeFormatsLen).findSome? fun i =>
          if i = guessed_time_format_index then none
          else (P.parseTime time_str i).map fun time => (time, i)
  else none

/-- `cic.rs`: `CICRecord::str_sum_i32` — parse both strings as `f32`,
truncate each to `i32`, and add. -/
def str_sum_i32 (P : Parsers) (s1 s2 : String) : Option Int := do
  let i1 ← P.parseF32asI32 s1
  let i2 ← P.parseF32asI32 s2
  pure (i1 + i2)

/-- `cic.rs`: `CICRecord::from_ids_csv` — build a `CICRecord` from an
85-column row (`row.getD i ""` models `record[i]`, always in range for
the rows the reader keeps): source IP (1, trimmed), source port (2),
destination IP (3, trimmed), destination port (4), protocol (5),
timestamp (6, trimmed, via `str_to_timestamp`), duration in microseconds
(7), packet counts as the pairwise sums of columns 8+40 and 9+41, byte
counts from 10 and 11, and label name (84, trimmed) with index 0. Any
`unwrap` failure or timestamp panic is `none`. -/
def from_ids_csv (P : Parsers) (row : List String) (is_am : Option Bool)
    (guessed_time_format_index : Nat) : Option (CICRecord × Nat) := do
  let ts ← str_to_timestamp P (rustTrim (row.getD 6 "")) is_am guessed_time_format_index
  let sp ← P.parseU32 (row.getD 2 "")
  let dp ← P.parseU32 (row.getD 4 "")
  let proto ← P.parseU8 (row.getD 5 "")
  let dur ← P.parseI64 (row.getD 7 "")
  let pFwd ← str_sum_i32 P (row.getD 8 "") (row.getD 40 "")
  let pBwd ← str_sum_i32 P (row.getD 9 "") (row.getD 41 "")
  let bFwd ← P.parseF32asI32 (row.getD 10 "")
  let bBwd ← P.parseF32asI32 (row.getD 11 "")
  pure
    ({ src_ip := rustTrim (row.getD 1 "")
     , src_port := sp
     , dst_ip := rustTrim (row.getD 3 "")
     , dst_port := dp
     , protocol := proto
     , timestamp := { time := ts.1 }
     , duration := dur
     , n_packet := (pFwd, pBwd)
     , n_bytes_packet := (bFwd, bBwd)
     , label := { index := 0, name := rustTrim (row.getD 84 "") } }, ts.2)

/-- `HashMap::get` on the label map, modelled as an association list with
distinct keys (insertion order is kept so that first-seen order is
visible; the source map is unordered but its observable operations —
`get`, `insert` of a fresh key, `len` — agree with this model). -/
def lookup : List (String × Nat) → String → Option Nat
  | [], _ => none
  | (k, v) :: rest, name => if k = name then some v else lookup rest name

/-- `cic.rs`: `reader::update_label_and_index_mut` — if the record's
label name is already mapped, stamp the record with the existing index;
otherwise compute `(label_map.len() + 1) as u8` (a `u8` cast, hence the
`% 256`), insert the new mapping, and stamp the record with it. Returns
the updated map and record. -/
def update_label_and_index_mut (label_map : List (String × Nat)) (cic_record : CICRecord) :
    List (String × Nat) × CICRecord :=
  match lookup label_map cic_record.label.name with
  | some index =>
      (label_map, { cic_record with label := { cic_record.label with index := index } })
  | none =>
      let current_index : Nat := (label_map.length + 1) % 256
      (label_map ++ [(cic_record.label.name, current_index)],
       { cic_record with label := { cic_record.label with index := current_index } })

/-- The loop state of `reader::read_ids_csv`: the records parsed so far,
the label map, the sticky time-format index, and the number of
skipped-row warnings printed. -/
structure ReadState where
  records : List CICRecord
  label_map : List (String × Nat)
  time_format_index : Nat
  warnings : Nat

/-- `cic.rs`: one iteration of the loop of `reader::read_ids_csv`: a row
whose column count is not 85 is skipped with one warning; otherwise the
row is parsed (a parse panic aborts: `none`), the label map is updated,
the record is stored, and the matched time-format index becomes the next
guess. -/
def read_step (P : Parsers) (is_am : Option Bool) (st : ReadState) (row : List String) :
    Option ReadState :=
  if row.length ≠ 85 then some { st with warnings := st.warnings + 1 }
  else
    match from_ids_csv P row is_am st.time_format_index with
    | none => none
    | some (cic_record, fmt) =>
        let upd := update_label_and_index_mut st.label_map cic_record
        some { records := st.records ++ [upd.2]
             , label_map := upd.1
             , time_format_index := fmt
             , warnings := st.warnings }

/-- `cic.rs`: `reader::read_ids_csv` over the data rows of one file (the
header row is consumed by the csv reader configuration and is not in
`rows`). The label map is seeded with the benign name at index 1 and the
time-format guess starts at 0. `none` models a fatal parse panic. -/
def read_ids_csv (P : Parsers) (is_am : Option Bool) (benign_label_name : String)
    (rows : List (List String)) : Option ReadState :=
  rows.foldlM (read_step P is_am)
    { records := []
    , label_map := [(benign_label_name, 1)]
    , time_format_index := 0
    , warnings := 0 }

/-- A concrete input record used by the witnesses. -/
def sampleRecord : CICRecord :=
  { src_ip := "192.168.0.1"
  , src_port := 80
  , dst_ip := "10.0.0.2"
  , dst_port := 443
  , protocol := 6
  , timestamp := { time := 0 }
  , duration := 5000
  , n_packet := (3, 4)
  , n_bytes_packet := (300, 400)
  , label := { index := 1, name := "BENIGN" } }
/-- A concrete record produced from a uniform 85-column row by the
trivial oracle, for the C8 witness. -/
def c8Record : CICRecord :=
  { src_ip := "7"
  , src_port := 0
  , dst_ip := "7"
  , dst_port := 0
  , protocol := 0
  , timestamp := { time := 0 }
  , duration := 0
  , n_packet := (0, 0)
  , n_bytes_packet := (0, 0)
  , label := { index := 0, name := "7" } }
/-- The label-map invariant maintained by the reader under the benign
seed: keys are distinct, the values in storage order are exactly
`1, 2, ..., len`, and the first entry is the benign binding `(benign, 1)`. -/
def MapInv (benign : String) (m : List (String × Nat)) : Prop :=
  (m.map Prod.fst).Nodup ∧
  m.map Prod.snd = List.range' 1 m.length ∧
  m.head? = some (benign, 1)
/-- A parser oracle whose numeric parsers always return 0 and whose
timestamp parser matches every format: used to drive concrete reader
runs whose interesting behaviour is the label indexing. -/
def trivParsers : Parsers :=
  { parseU32 := fun _ => some 0
  , parseU8 := fun _ => some 0
  , parseI64 := fun _ => some 0
  , parseF32asI32 := fun _ => some 0
  , parseTime := fun _ _ => some 0 }
/-- A concrete parser oracle for the C6 witness: only format 4 matches,
and only on the string `"x pm"`. -/
def c6Parsers : Parsers :=
  { parseU32 := fun _ => some 0
  , parseU8 := fun _ => some 0
  , parseI64 := fun _ => some 0
  , parseF32asI32 := fun _ => some 0
  , parseTime := fun s i => if i = 4 ∧ s = "x pm" then some 99 else none }
/-- Distinct non-benign label names for the wraparound run: `lab k` is
the string of `k + 1` letters `a`, injective in `k` by length. -/
def lab (k : Nat) : String :=
  String.mk (List.replicate (k + 1) 'a')

/-- One valid 85-column row whose label column (index 84) carries
`lab k`. -/
def rowU (k : Nat) : List String :=
  List.replicate 84 "0" ++ [lab k]

/-- 255 valid 85-column rows with 255 distinct non-benign label names. -/
def rows255 : List (List String) :=
  (List.range 255).map rowU

/-- The record `from_ids_csv` builds from any row under `trivParsers`:
every numeric field is 0 and the format guess 0 is confirmed. -/
def trivRecord (row : List String) : CICRecord :=
  { src_ip := rustTrim (row.getD 1 "")
  , src_port := 0
  , dst_ip := rustTrim (row.getD 3 "")
  , dst_port := 0
  , protocol := 0
  , timestamp := { time := 0 }
  , duration := 0
  , n_packet := (0, 0)
  , n_bytes_packet := (0, 0)
  , label := { index := 0, name := rustTrim (row.getD 84 "") } }

/-- Closed form of the record the reader stores for the `k`-th uniform
row: the `k`-th new non-benign label receives `(k + 2) as u8`. -/
def uniformRecord (k : Nat) : CICRecord :=
  { src_ip := "0"
  , src_port := 0
  , dst_ip := "0"
  , dst_port := 0
  , protocol := 0
  , timestamp := { time := 0 }
  , duration := 0
  , n_packet := (0, 0)
  , n_bytes_packet := (0, 0)
  , label := { index := (k + 2) % 256, name := lab k } }

/-- Closed form of the label map after `k` uniform rows (the benign name
is the empty string). -/
def uniformMap (k : Nat) : List (String × Nat) :=
  ("", 1) :: (List.range k).map (fun i => (lab i, (i + 2) % 256))

/-- Closed form of the reader state after `k` uniform rows. -/
def uniformState (k : Nat) : ReadState :=
  { records := (List.range k).map uniformRecord
  , label_map := uniformMap k
  , time_format_index := 0
  , warnings := 0 }
/-- A label map with 255 entries (the largest size at which the next
insertion index `(len + 1) as u8` wraps to 0). -/
def m255 : List (String × Nat) :=
  (List.range 255).map fun i => (Nat.repr i, i + 1)

/-! ### Digit-count and decimal-rendering lemmas -/

theorem digitLoopAux_congr :
    ∀ f1 f2 x : Nat, x ≤ f1 → x ≤ f2 → digitLoopAux f1 x = digitLoopAux f2 x := by
  intro f1
  induction f1 with
  | zero =>
      intro f2 x h1 _
      interval_cases x
      cases f2 <;> simp [digitLoopAux]
  | succ f1 ih =>
      intro f2 x h1 h2
      by_cases hx : x = 0
      · subst hx
        cases f2 <;> simp [digitLoopAux]
      · obtain ⟨f2', rfl⟩ : ∃ f2', f2 = f2' + 1 := by
          cases f2 with
          | zero => omega
          | succ n => exact ⟨n, rfl⟩
        have hdiv : x / 10 < x := Nat.div_lt_self (Nat.pos_of_ne_zero hx) (by norm_num)
        simp only [digitLoopAux, if_neg hx]
        rw [ih f2' (x / 10) (by omega) (by omega)]

theorem digitLoop_eq (x : Nat) :
    digitLoop x = if x = 0 then 0 else digitLoop (x / 10) + 1 := by
  by_cases hx : x = 0
  · subst hx; simp [digitLoop, digitLoopAux]
  · obtain ⟨n, rfl⟩ : ∃ n, x = n + 1 := by
      cases x with
      | zero => omega
      | succ n => exact ⟨n, rfl⟩
    have hdiv : (n + 1) / 10 < n + 1 := Nat.div_lt_self (by omega) (by norm_num)
    simp only [digitLoop, digitLoopAux, if_neg hx]
    rw [digitLoopAux_congr n ((n + 1) / 10) ((n + 1) / 10) (by omega) le_rfl]

theorem digitLoop_pos (x : Nat) (hx : x ≠ 0) : 1 ≤ digitLoop x := by
  rw [digitLoop_eq, if_neg hx]; omega

theorem digitLoop_le_of_lt (k : Nat) :
    ∀ x : Nat, x < 10 ^ k → digitLoop x ≤ k := by
  induction k with
  | zero =>
      intro x hx
      have h1 : x < 1 := by simpa using hx
      have hx0 : x = 0 := by omega
      subst hx0
      simp [digitLoop, digitLoopAux]
  | succ k ih =>
      intro x hx
      by_cases h0 : x = 0
      · subst h0; simp [digitLoop, digitLoopAux]
      · rw [digitLoop_eq, if_neg h0]
        have : x / 10 < 10 ^ k := by
          rw [Nat.div_lt_iff_lt_mul (by norm_num)]
          calc x < 10 ^ (k + 1) := hx
            _ = 10 ^ k * 10 := by ring
        exact Nat.succ_le_succ (ih _ this)

theorem digitLoop_div_1000 (x : Nat) (hx : 1000 ≤ x) :
    digitLoop x = digitLoop (x / 1000) + 3 := by
  have h1 : x ≠ 0 := by omega
  have h2 : x / 10 ≠ 0 := by
    have : 100 ≤ x / 10 := (Nat.le_div_iff_mul_le (by norm_num)).2 (by omega)
    omega
  have h3 : x / 10 / 10 ≠ 0 := by
    have : 10 ≤ x / 10 / 10 := by
      rw [Nat.div_div_eq_div_mul]
      exact (Nat.le_div_iff_mul_le (by norm_num)).2 (by omega)
    omega
  rw [digitLoop_eq x, if_neg h1, digitLoop_eq (x / 10), if_neg h2,
    digitLoop_eq (x / 10 / 10), if_neg h3]
  rw [Nat.div_div_eq_div_mul, Nat.div_div_eq_div_mul]

theorem get_n_digit_coe (m : Nat) :
    get_n_digit_in_decimal (m : Int) = if m = 0 then 1 else digitLoop m := by
  simp [get_n_digit_in_decimal, Int.natCast_eq_zero]

theorem length_natDigitsRevAux :
    ∀ fuel x : Nat, (natDigitsRevAux fuel x).length = digitLoopAux fuel x := by
  intro fuel
  induction fuel with
  | zero => intro x; simp [natDigitsRevAux, digitLoopAux]
  | succ fuel ih =>
      intro x
      by_cases hx : x = 0 <;> simp [natDigitsRevAux, digitLoopAux, hx, ih]

theorem natRepr_length (n : Nat) :
    (natRepr n).length = if n = 0 then 1 else digitLoop n := by
  by_cases hn : n = 0
  · subst hn; rfl
  · simp only [natRepr, if_neg hn]
    show (natDigitsRevAux n n).reverse.length = _
    rw [List.length_reverse, length_natDigitsRevAux]
    rfl

theorem intRepr_coe (m : Nat) : intRepr (m : Int) = natRepr m := by
  simp [intRepr, Int.natAbs_ofNat]

theorem i64Div_coe (m n : Nat) : i64Div (m : Int) (n : Int) = ((m / n : Nat) : Int) := rfl

theorem i64Mod_coe (m n : Nat) : i64Mod (m : Int) (n : Int) = ((m % n : Nat) : Int) := rfl

/-- Core of the width-sufficiency argument: the unpadded `"{s}.{ms}"`
rendering of a non-negative millisecond value never exceeds the width
`cic_to_nf_batch` computes from it. -/
theorem raw_length_le_duration_width (m : Nat) :
    (format_duration_raw (m : Int)).length ≤ duration_width (m : Int) := by
  have h1000 : ((1000 : Nat) : Int) = (1000 : Int) := by norm_num
  rw [format_duration_raw, ← h1000, i64Div_coe, i64Mod_coe, intRepr_coe, intRepr_coe]
  rw [String.length_append, String.length_append]
  have hdot : (".".length : Nat) = 1 := rfl
  rw [hdot]
  rw [duration_width, get_n_digit_coe, natRepr_length, natRepr_length]
  by_cases hm : m < 1000
  · have hdiv : m / 1000 = 0 := Nat.div_eq_of_lt hm
    have hmod : m % 1000 = m := Nat.mod_eq_of_lt hm
    have hlt : (m : Int) < 1000 := by exact_mod_cast hm
    rw [hdiv, hmod, if_pos hlt]
    by_cases h0 : m = 0
    · simp [h0]
    · simp only [if_neg h0, if_true]
      have := digitLoop_pos m h0
      omega
  · have hge : 1000 ≤ m := by omega
    have hne : m ≠ 0 := by omega
    have hdivne : m / 1000 ≠ 0 := by
      have : 1 ≤ m / 1000 := (Nat.le_div_iff_mul_le (by norm_num)).2 (by omega)
      omega
    have hnlt : ¬ ((m : Int) < 1000) := by omega
    have hmain : digitLoop m = digitLoop (m / 1000) + 3 := digitLoop_div_1000 m hge
    have hmod3 : (if m % 1000 = 0 then 1 else digitLoop (m % 1000)) ≤ 3 := by
      by_cases h0 : m % 1000 = 0
      · simp [h0]
      · rw [if_neg h0]
        exact digitLoop_le_of_lt 3 (m % 1000) (by
          have : m % 1000 < 1000 := Nat.mod_lt _ (by norm_num)
          norm_num
          omega)
    rw [if_neg hne, if_neg hdivne, if_neg hnlt]
    omega

/-! ### Batch-transformation lemmas -/

theorem cic_fold_spec :
    ∀ (rs : List CICRecord) (acc : List NetFlow) (mm : Int),
      rs.foldl
        (fun acc r =>
          let pair := netflow_new r
          (acc.1 ++ [pair.1, pair.2],
           max (max acc.2 (duration_ms pair.1)) (duration_ms pair.2)))
        (acc, mm) =
      (acc ++ pairList rs, (pairList rs).foldl (fun m nf => max m (duration_ms nf)) mm) := by
  intro rs
  induction rs with
  | nil => intro acc mm; simp [pairList]
  | cons r t ih =>
      intro acc mm
      simp only [List.foldl_cons, pairList, ih, List.foldl, List.append_assoc,
        List.cons_append, List.nil_append]

theorem cic_to_nf_batch_eq (rs : List CICRecord) :
    cic_to_nf_batch rs =
      (pairList rs).map
        (fun nf => { nf with duration_str_width := duration_width (maxMsOf rs) }) := by
  rw [cic_to_nf_batch, cic_fold_spec rs [] 0]
  rfl

theorem pairList_length (rs : List CICRecord) :
    (pairList rs).length = 2 * rs.length := by
  induction rs with
  | nil => rfl
  | cons r t ih => simp [pairList, ih]; omega

theorem pairList_get :
    ∀ (rs : List CICRecord) (k : Nat), (hk : k < rs.length) →
      (pairList rs)[2 * k]? = some (netflow_new rs[k]).1 ∧
      (pairList rs)[2 * k + 1]? = some (netflow_new rs[k]).2 := by
  intro rs
  induction rs with
  | nil => intro k hk; simp at hk
  | cons r t ih =>
      intro k hk
      cases k with
      | zero => simp [pairList]
      | succ k =>
          have h2 : 2 * (k + 1) = 2 * k + 1 + 1 := by ring
          rw [h2]
          simp only [pairList, List.getElem?_cons_succ]
          exact ih k (by simpa using hk)

theorem foldl_max_init_le :
    ∀ (l : List NetFlow) (m : Int), m ≤ l.foldl (fun a nf => max a (duration_ms nf)) m := by
  intro l
  induction l with
  | nil => intro m; simp
  | cons nf t ih =>
      intro m
      simp only [List.foldl_cons]
      exact le_trans (le_max_left m (duration_ms nf)) (ih _)

theorem foldl_max_mem_le :
    ∀ (l : List NetFlow) (m : Int) (nf : NetFlow), nf ∈ l →
      duration_ms nf ≤ l.foldl (fun a nf => max a (duration_ms nf)) m := by
  intro l
  induction l with
  | nil => intro m nf h; simp at h
  | cons x t ih =>
      intro m nf h
      rcases List.mem_cons.mp h with h | h
      · subst h
        simp only [List.foldl_cons]
        exact le_trans (le_max_right m (duration_ms nf)) (foldl_max_init_le t _)
      · simp only [List.foldl_cons]
        exact ih _ nf h

theorem maxMsOf_nonneg (rs : List CICRecord) : 0 ≤ maxMsOf rs :=
  foldl_max_init_le (pairList rs) 0

theorem maxMsOf_mem_le (rs : List CICRecord) (nf : NetFlow) (h : nf ∈ pairList rs) :
    duration_ms nf ≤ maxMsOf rs :=
  foldl_max_mem_le (pairList rs) 0 nf h

theorem clampDuration_fst (d : Int) : (clampDuration d).1 = max 0 d := by
  by_cases h1 : d = -1
  · subst h1; decide
  · by_cases h2 : d < 0
    · have h : clampDuration d = (0, 1) := by simp [clampDuration, h1, h2]
      rw [h]
      exact (max_eq_left h2.le).symm
    · have h : clampDuration d = (d, 0) := by simp [clampDuration, h1, h2]
      rw [h]
      exact (max_eq_right (not_lt.mp h2)).symm

theorem clampDuration_warn_neg (d : Int) (h2 : d < 0) : (clampDuration d).2 = 1 := by
  by_cases h1 : d = -1
  · subst h1; decide
  · simp [clampDuration, h1, h2]

theorem clampDuration_nonneg (d : Int) (h : 0 ≤ d) : clampDuration d = (d, 0) := by
  have h1 : d ≠ -1 := by omega
  have h2 : ¬ d < 0 := not_lt.mpr h
  simp [clampDuration, h1, h2]

/-- C1: every input record is expanded by `NetFlow::new` (applied over the
whole batch by `cic_to_nf_batch`) into exactly two output records, at
positions `2k` and `2k+1`: the forward one keeps the source and
destination endpoints and carries the forward (index 0) packet and byte
counts, the reverse one swaps the endpoints and carries the backward
(index 1) counts; both share the timestamp, the clamped duration, the
protocol and the label, and a batch of `n` records yields exactly `2n`
output records. -/
theorem c1_bidirectional_expansion (rs : List CICRecord) :
    (cic_to_nf_batch rs).length = 2 * rs.length ∧
    ∀ k, (hk : k < rs.length) →
      ∃ fwd rev,
        (cic_to_nf_batch rs)[2 * k]? = some fwd ∧
        (cic_to_nf_batch rs)[2 * k + 1]? = some rev ∧
        fwd.src_ip = rs[k].src_ip ∧
        fwd.src_port = rs[k].src_port ∧
        fwd.dst_ip = rs[k].dst_ip ∧
        fwd.dst_port = rs[k].dst_port ∧
        fwd.n_packet = toU32 rs[k].n_packet.1 ∧
        fwd.n_bytes_packet = toU32 rs[k].n_bytes_packet.1 ∧
        rev.src_ip = rs[k].dst_ip ∧
        rev.src_port = rs[k].dst_port ∧
        rev.dst_ip = rs[k].src_ip ∧
        rev.dst_port = rs[k].src_port ∧
        rev.n_packet = toU32 rs[k].n_packet.2 ∧
        rev.n_bytes_packet = toU32 rs[k].n_bytes_packet.2 ∧
        fwd.timestamp = rs[k].timestamp ∧
        rev.timestamp = rs[k].timestamp ∧
        fwd.duration = max 0 rs[k].duration ∧
        rev.duration = max 0 rs[k].duration ∧
        fwd.protocol = rs[k].protocol ∧
        rev.protocol = rs[k].protocol ∧
        fwd.label = rs[k].label ∧
        rev.label = rs[k].label := by
  constructor
  · rw [cic_to_nf_batch_eq, List.length_map, pairList_length]
  · intro k hk
    obtain ⟨h1, h2⟩ := pairList_get rs k hk
    refine ⟨{ (netflow_new rs[k]).1 with duration_str_width := duration_width (maxMsOf rs) },
      { (netflow_new rs[k]).2 with duration_str_width := duration_width (maxMsOf rs) },
      ?_, ?_, ?_, ?_, ?_, ?_, ?_, ?_, ?_, ?_, ?_, ?_, ?_, ?_, ?_, ?_, ?_, ?_,
      ?_, ?_, ?_, ?_⟩
    · rw [cic_to_nf_batch_eq, List.getElem?_map, h1]; rfl
    · rw [cic_to_nf_batch_eq, List.getElem?_map, h2]; rfl
    all_goals first
      | rfl
      | exact clampDuration_fst rs[k].duration

/-- Witness for C1 at a concrete one-record batch. -/
theorem c1_witness :
    (cic_to_nf_batch [sampleRecord]).length = 2 * 1 ∧
    (cic_to_nf_batch [sampleRecord])[0]?.map (fun nf => nf.src_ip) = some "192.168.0.1" ∧
    (cic_to_nf_batch [sampleRecord])[1]?.map (fun nf => nf.src_ip) = some "10.0.0.2" := by
  obtain ⟨hlen, hpair⟩ := c1_bidirectional_expansion [sampleRecord]
  obtain ⟨fwd, rev, h0, h1, hfs, -, -, -, -, -, hrs, -⟩ := hpair 0 (by norm_num)
  refine ⟨by simpa using hlen, ?_, ?_⟩
  · rw [show (0 : Nat) = 2 * 0 by norm_num, h0]
    show some fwd.src_ip = some "192.168.0.1"
    rw [hfs]
    rfl
  · rw [show (1 : Nat) = 2 * 0 + 1 by norm_num, h1]
    show some rev.src_ip = some "10.0.0.2"
    rw [hrs]
    rfl

/-- C2: both output records of `NetFlow::new` carry duration
`max(0, d)`: exactly `-1` microsecond becomes 0 with one warning (not a
fatal error), any duration below `-1` also becomes 0 with a warning, a
non-negative duration passes through unchanged with no warning, and every
output duration is non-negative. -/
theorem c2_duration_clamp (cr : CICRecord) :
    (netflow_new cr).1.duration = max 0 cr.duration ∧
    (netflow_new cr).2.duration = max 0 cr.duration ∧
    0 ≤ (netflow_new cr).1.duration ∧
    0 ≤ (netflow_new cr).2.duration ∧
    (cr.duration = -1 → (netflow_new cr).1.duration = 0 ∧ (clampDuration cr.duration).2 = 1) ∧
    (cr.duration < -1 → (netflow_new cr).1.duration = 0 ∧ (clampDuration cr.duration).2 = 1) ∧
    (0 ≤ cr.duration →
      (netflow_new cr).1.duration = cr.duration ∧ (clampDuration cr.duration).2 = 0) := by
  have hfst : (netflow_new cr).1.duration = (clampDuration cr.duration).1 := rfl
  have hsnd : (netflow_new cr).2.duration = (clampDuration cr.duration).1 := rfl
  have hclamp := clampDuration_fst cr.duration
  refine ⟨by rw [hfst, hclamp], by rw [hsnd, hclamp], ?_, ?_, ?_, ?_, ?_⟩
  · rw [hfst, hclamp]; exact le_max_left 0 _
  · rw [hsnd, hclamp]; exact le_max_left 0 _
  · intro h
    refine ⟨by rw [hfst, hclamp]; omega, clampDuration_warn_neg _ (by omega)⟩
  · intro h
    refine ⟨by rw [hfst, hclamp]; omega, clampDuration_warn_neg _ (by omega)⟩
  · intro h
    rw [hfst, clampDuration_nonneg _ h]
    exact ⟨rfl, rfl⟩

/-- Witness for C2 at the sentinel duration `-1`. -/
theorem c2_witness :
    ({ sampleRecord with duration := -1 } : CICRecord).duration = -1 ∧
    (netflow_new { sampleRecord with duration := -1 }).1.duration = 0 ∧
    (clampDuration (-1)).2 = 1 := by
  have h := (c2_duration_clamp { sampleRecord with duration := -1 }).2.2.2.2.1 rfl
  exact ⟨rfl, h.1, h.2⟩

/-- C4: `cic_to_nf_batch` stamps every output record of a batch with one
shared duration-rendering width, computed from the batch maximum of the
millisecond durations (taken as at least 0, over all produced pairs) as
digit count plus one, plus one more below 1000 ms; that width is
sufficient for `format_duration` to render the batch maximum without
truncation. -/
theorem c4_batch_width (rs : List CICRecord) :
    (∀ nf ∈ cic_to_nf_batch rs, nf.duration_str_width = duration_width (maxMsOf rs)) ∧
    0 ≤ maxMsOf rs ∧
    (∀ nf ∈ cic_to_nf_batch rs, duration_ms nf ≤ maxMsOf rs) ∧
    (format_duration_raw (maxMsOf rs)).length ≤ duration_width (maxMsOf rs) := by
  refine ⟨?_, maxMsOf_nonneg rs, ?_, ?_⟩
  · intro nf h
    rw [cic_to_nf_batch_eq] at h
    obtain ⟨x, hx, rfl⟩ := List.mem_map.mp h
    rfl
  · intro nf h
    rw [cic_to_nf_batch_eq] at h
    obtain ⟨x, hx, rfl⟩ := List.mem_map.mp h
    exact maxMsOf_mem_le rs x hx
  · rw [← Int.toNat_of_nonneg (maxMsOf_nonneg rs)]
    exact raw_length_le_duration_width _

/-- Witness for C4 at a concrete one-record batch (5000 µs = 5 ms, so the
width is `digits(5) + 1 + 1 = 3` and the raw rendering `"0.5"` fits). -/
theorem c4_witness :
    maxMsOf [sampleRecord] = 5 ∧
    (cic_to_nf_batch [sampleRecord]).map (fun nf => nf.duration_str_width) = [3, 3] ∧
    (format_duration_raw (maxMsOf [sampleRecord])).length ≤ duration_width (maxMsOf [sampleRecord]) := by
  obtain ⟨hw, hnn, hle, hraw⟩ := c4_batch_width [sampleRecord]
  refine ⟨by rfl, ?_, hraw⟩
  rfl

/-- C10: `format_duration` renders a duration of `ms` milliseconds as
`"(ms / 1000).(ms % 1000)"` right-aligned to the record's width, printing
the millisecond remainder without zero padding, so whenever the remainder
modulo 1000 is below 100 the fractional part has fewer than three digits
(1005 ms renders as `"1.5"`, not `"1.005"`). -/
theorem c10_no_zero_padding (nf : NetFlow) :
    format_duration nf =
      rightAlign nf.duration_str_width
        (intRepr (i64Div (duration_ms nf) 1000) ++ "." ++
          intRepr (i64Mod (duration_ms nf) 1000)) ∧
    (0 ≤ duration_ms nf → i64Mod (duration_ms nf) 1000 < 100 →
      (intRepr (i64Mod (duration_ms nf) 1000)).length < 3) := by
  refine ⟨rfl, ?_⟩
  intro hpos hsmall
  obtain ⟨m, hm⟩ : ∃ m : Nat, duration_ms nf = (m : Int) :=
    ⟨(duration_ms nf).toNat, (Int.toNat_of_nonneg hpos).symm⟩
  rw [hm] at hsmall ⊢
  rw [show ((1000 : Int)) = ((1000 : Nat) : Int) by norm_num] at hsmall ⊢
  rw [i64Mod_coe] at hsmall ⊢
  rw [intRepr_coe, natRepr_length]
  have hlt : m % 1000 < 100 := by exact_mod_cast hsmall
  by_cases h0 : m % 1000 = 0
  · simp [h0]
  · rw [if_neg h0]
    have := digitLoop_le_of_lt 2 (m % 1000) (by norm_num; omega)
    omega

/-- Witness for C10: a flow of 1005000 µs (= 1005 ms) with batch width 3
renders as `"1.5"`. -/
theorem c10_witness :
    format_duration
        { (netflow_new sampleRecord).1 with duration := 1005000, duration_str_width := 3 } =
      "1.5" ∧
    (intRepr (i64Mod (duration_ms
        { (netflow_new sampleRecord).1 with duration := 1005000, duration_str_width := 3 })
        1000)).length < 3 := by
  have h := (c10_no_zero_padding
    { (netflow_new sampleRecord).1 with duration := 1005000, duration_str_width := 3 }).2
    (by decide) (by decide)
  exact ⟨rfl, h⟩

/-! ### Categorization lemmas -/

theorem sum_map_add (l : List Nat) (f g : Nat → Nat) :
    (l.map (fun i => f i + g i)).sum = (l.map f).sum + (l.map g).sum := by
  induction l with
  | nil => simp
  | cons a t ih => simp [ih]; omega

theorem sum_indicator_range :
    ∀ n idx : Nat, 1 ≤ idx → idx ≤ n →
      ((List.range n).map (fun i => if idx = i + 1 then 1 else 0)).sum = 1 := by
  intro n
  induction n with
  | zero => intro idx h1 h2; omega
  | succ n ih =>
      intro idx h1 h2
      rw [List.range_succ, List.map_append, List.sum_append]
      by_cases hi : idx = n + 1
      · have hfront : ((List.range n).map (fun i => if idx = i + 1 then 1 else 0)).sum = 0 := by
          apply List.sum_eq_zero
          intro x hx
          obtain ⟨i, hiMem, rfl⟩ := List.mem_map.mp hx
          have hin : i < n := List.mem_range.mp hiMem
          have hne : idx ≠ i + 1 := by omega
          simp [hne]
        have hlast : (([n] : List Nat).map (fun i => if idx = i + 1 then 1 else 0)).sum = 1 := by
          simp [hi]
        rw [hfront, hlast]
      · have hfront := ih idx h1 (by omega)
        have hlast : (([n] : List Nat).map (fun i => if idx = i + 1 then 1 else 0)).sum = 0 := by
          simp [hi]
        rw [hfront, hlast]

theorem sum_filter_lengths :
    ∀ (nfs : List NetFlow) (n : Nat),
      (∀ nf ∈ nfs, 1 ≤ nf.label.index ∧ nf.label.index ≤ n) →
      ((List.range n).map
        (fun i => (nfs.filter (fun nf => nf.label.index = i + 1)).length)).sum = nfs.length := by
  intro nfs
  induction nfs with
  | nil => intro n _; simp
  | cons nf rest ih =>
      intro n h
      obtain ⟨hge, hle⟩ := h nf (List.mem_cons_self nf rest)
      have key : ∀ i : Nat,
          ((nf :: rest).filter (fun x => x.label.index = i + 1)).length =
          (if nf.label.index = i + 1 then 1 else 0) +
            (rest.filter (fun x => x.label.index = i + 1)).length := by
        intro i
        by_cases hp : nf.label.index = i + 1
        · rw [List.filter_cons_of_pos (by simp [hp]), if_pos hp]
          simp only [List.length_cons]
          omega
        · rw [List.filter_cons_of_neg (by simp [hp]), if_neg hp]
          simp
      have hmapeq : (List.range n).map
            (fun i => ((nf :: rest).filter (fun x => x.label.index = i + 1)).length) =
          (List.range n).map
            (fun i => (if nf.label.index = i + 1 then 1 else 0) +
              (rest.filter (fun x => x.label.index = i + 1)).length) := by
        apply List.map_congr_left
        intro i _
        exact key i
      rw [hmapeq, sum_map_add, sum_indicator_range n nf.label.index hge hle,
        ih n (fun x hx => h x (List.mem_cons_of_mem nf hx))]
      simp only [List.length_cons]
      omega

theorem categorize_fold :
    ∀ (nfs : List NetFlow) (gs : List (List NetFlow)),
      (∀ nf ∈ nfs, 1 ≤ nf.label.index ∧ nf.label.index ≤ gs.length) →
      ∃ gs', nfs.foldlM categorize_step gs = some gs' ∧
        gs'.length = gs.length ∧
        ∀ i, i < gs.length →
          gs'[i]? = some (gs.getD i [] ++ nfs.filter (fun nf => nf.label.index = i + 1)) := by
  intro nfs
  induction nfs with
  | nil =>
      intro gs _
      refine ⟨gs, by simp, rfl, ?_⟩
      intro i hi
      simp [List.getElem?_eq_getElem hi, List.getD, List.getElem?_eq_getElem hi]
  | cons nf rest ih =>
      intro gs h
      obtain ⟨hge, hle⟩ := h nf (List.mem_cons_self nf rest)
      have h0 : nf.label.index ≠ 0 := by omega
      have hidx : nf.label.index - 1 < gs.length := by omega
      have hstep : categorize_step gs nf =
          some (gs.set (nf.label.index - 1) (gs[nf.label.index - 1] ++ [nf])) := by
        rw [categorize_step, if_neg h0, dif_pos hidx]
      obtain ⟨gs', hfold, hlen, hget⟩ :=
        ih (gs.set (nf.label.index - 1) (gs[nf.label.index - 1] ++ [nf]))
          (by
            intro x hx
            have := h x (List.mem_cons_of_mem nf hx)
            simpa using this)
      refine ⟨gs', ?_, by simpa using hlen, ?_⟩
      · rw [List.foldlM_cons, hstep]
        exact hfold
      · intro i hi
        have hi' : i < (gs.set (nf.label.index - 1) (gs[nf.label.index - 1] ++ [nf])).length := by
          simpa using hi
        rw [hget i hi']
        have hgetD : ∀ (l : List (List NetFlow)) (j : Nat), (hj : j < l.length) →
            l.getD j [] = l[j] := by
          intro l j hj
          simp [List.getD, List.getElem?_eq_getElem hj]
        rw [hgetD _ i hi', hgetD gs i hi]
        rw [List.getElem_set]
        by_cases heq : nf.label.index - 1 = i
        · rw [if_pos heq]
          subst heq
          have hp : nf.label.index = nf.label.index - 1 + 1 := by omega
          rw [List.filter_cons_of_pos (by simp only [decide_eq_true_eq]; omega)]
          simp
        · have hp : nf.label.index ≠ i + 1 := by omega
          rw [if_neg heq, List.filter_cons_of_neg (by simpa using hp)]

/-- C5: given output records whose label indices are dense in `1..N`
(`N` the label-library size, as the reader guarantees), `categorize_nf`
succeeds and returns exactly `N` groups forming a strict partition: group
`i` (0-based) is exactly the subsequence of records with label index
`i+1`, membership in a group is membership in the input with the matching
index, and the group sizes add up to the full input size. -/
theorem c5_categorize_partition (nfs : List NetFlow) (lib : List (String × Nat))
    (hd : ∀ nf ∈ nfs, 1 ≤ nf.label.index ∧ nf.label.index ≤ lib.length) :
    categorize_nf nfs lib =
      some ((List.range lib.length).map
        (fun i => nfs.filter (fun nf => nf.label.index = i + 1))) ∧
    ∀ gs, categorize_nf nfs lib = some gs →
      gs.length = lib.length ∧
      (∀ i nf, i < lib.length →
        (nf ∈ gs.getD i [] ↔ nf ∈ nfs ∧ nf.label.index = i + 1)) ∧
      (gs.map List.length).sum = nfs.length := by
  have hrepl : (List.replicate lib.length ([] : List NetFlow)).length = lib.length :=
    List.length_replicate _ _
  obtain ⟨gs', hfold, hlen, hget⟩ :=
    categorize_fold nfs (List.replicate lib.length []) (by simpa [hrepl] using hd)
  have hmain : categorize_nf nfs lib =
      some ((List.range lib.length).map
        (fun i => nfs.filter (fun nf => nf.label.index = i + 1))) := by
    rw [categorize_nf, hfold]
    congr 1
    apply List.ext_getElem?
    intro i
    by_cases hi : i < lib.length
    · rw [hget i (by simpa using hi)]
      rw [List.getElem?_map, List.getElem?_range hi]
      simp [List.getD, List.getElem?_replicate, if_pos hi]
    · have h1 : gs'.length ≤ i := by omega
      have h2 : ((List.range lib.length).map
          (fun i => nfs.filter (fun nf => nf.label.index = i + 1))).length ≤ i := by
        simpa using (by omega : lib.length ≤ i)
      rw [List.getElem?_eq_none h1, List.getElem?_eq_none h2]
  refine ⟨hmain, ?_⟩
  intro gs hgs
  rw [hmain] at hgs
  injection hgs with hgs
  subst hgs
  refine ⟨by simp, ?_, ?_⟩
  · intro i nf hi
    have : ((List.range lib.length).map
        (fun i => nfs.filter (fun nf => nf.label.index = i + 1))).getD i [] =
        nfs.filter (fun nf => nf.label.index = i + 1) := by
      simp [List.getD, List.getElem?_map, List.getElem?_range hi]
    rw [this, List.mem_filter]
    simp
  · rw [List.map_map]
    have := sum_filter_lengths nfs lib.length hd
    simpa using this

/-- Witness for C5: two flows with dense label indices 1 and 2 are split
into exactly the two expected singleton groups. -/
theorem c5_witness :
    (∀ nf ∈ [(netflow_new sampleRecord).1,
        (netflow_new { sampleRecord with label := { index := 2, name := "PortScan" } }).1],
      1 ≤ nf.label.index ∧
        nf.label.index ≤ ([("BENIGN", 1), ("PortScan", 2)] : List (String × Nat)).length) ∧
    categorize_nf
        [(netflow_new sampleRecord).1,
         (netflow_new { sampleRecord with label := { index := 2, name := "PortScan" } }).1]
        [("BENIGN", 1), ("PortScan", 2)] =
      some [[(netflow_new sampleRecord).1],
        [(netflow_new { sampleRecord with label := { index := 2, name := "PortScan" } }).1]] := by
  have h := c5_categorize_partition
    [(netflow_new sampleRecord).1,
     (netflow_new { sampleRecord with label := { index := 2, name := "PortScan" } }).1]
    [("BENIGN", 1), ("PortScan", 2)] (by decide)
  refine ⟨by decide, ?_⟩
  rw [h.1]
  rfl

/-! ### Timestamp-normalizer lemmas -/

theorem findSome?_first {α β : Type} (f : α → Option β) :
    ∀ (l1 l2 : List α) (a : α) (b : β),
      (∀ x ∈ l1, f x = none) → f a = some b →
      (l1 ++ a :: l2).findSome? f = some b := by
  intro l1
  induction l1 with
  | nil =>
      intro l2 a b _ ha
      simp [List.findSome?_cons, ha]
  | cons x t ih =>
      intro l2 a b hnone ha
      have hx : f x = none := hnone x (List.mem_cons_self x t)
      simp only [List.cons_append, List.findSome?_cons, hx]
      exact ih l2 a b (fun y hy => hnone y (List.mem_cons_of_mem x hy)) ha

theorem range_split (n i : Nat) (h : i < n) :
    List.range n = List.range i ++ i :: List.drop (i + 1) (List.range n) := by
  conv_lhs => rw [← List.take_append_drop i (List.range n)]
  rw [List.take_range, Nat.min_eq_left h.le]
  congr 1
  rw [List.drop_eq_getElem_cons (by simpa using h), List.getElem_range]

/-! ### Reader step lemmas -/

theorem read_step_skip (P : Parsers) (is_am : Option Bool) (st : ReadState)
    (row : List String) (h : row.length ≠ 85) :
    read_step P is_am st row = some { st with warnings := st.warnings + 1 } := by
  rw [read_step, if_pos h]

theorem read_step_parsed (P : Parsers) (is_am : Option Bool) (st : ReadState)
    (row : List String) (r : CICRecord) (fmt : Nat)
    (hlen : row.length = 85)
    (hf : from_ids_csv P row is_am st.time_format_index = some (r, fmt)) :
    read_step P is_am st row =
      some { records := st.records ++ [(update_label_and_index_mut st.label_map r).2]
           , label_map := (update_label_and_index_mut st.label_map r).1
           , time_format_index := fmt
           , warnings := st.warnings } := by
  rw [read_step, if_neg (by omega), hf]

theorem foldlM_option_cons_some {α β : Type} (f : β → α → Option β) (b b' : β) (a : α)
    (l : List α) (h : f b a = some b') :
    List.foldlM f b (a :: l) = List.foldlM f b' l := by
  rw [List.foldlM_cons, h]
  rfl

/-- C6: `str_to_timestamp` first appends `" am"`/`" pm"` when a hint is
supplied, then tries the guessed pattern; on failure it scans the six
patterns in fixed order skipping the guess and returns the first match
with its index; it fails (the fatal `UnrecognizedTimestampFormat` panic)
exactly when no pattern matches; and `read_ids_csv` threads each row's
matched index forward as the next row's guess, starting from 0. -/
theorem c6_timestamp_normalizer (P : Parsers) (s : String) (is_am : Option Bool) (g : Nat)
    (hg : g < 6) :
    str_to_timestamp P s is_am g = str_to_timestamp P (appendHint s is_am) none g ∧
    (∀ v, P.parseTime (appendHint s is_am) g = some v →
      str_to_timestamp P s is_am g = some (v, g)) ∧
    (str_to_timestamp P s is_am g = none ↔
      ∀ i, i < 6 → P.parseTime (appendHint s is_am) i = none) ∧
    (∀ i v, P.parseTime (appendHint s is_am) g = none → i < 6 → i ≠ g →
      P.parseTime (appendHint s is_am) i = some v →
      (∀ j, j < i → j ≠ g → P.parseTime (appendHint s is_am) j = none) →
      str_to_timestamp P s is_am g = some (v, i)) ∧
    (∀ benign rowA rowB r1 j1 r2 j2,
      rowA.length = 85 → rowB.length = 85 →
      from_ids_csv P rowA is_am 0 = some (r1, j1) →
      from_ids_csv P rowB is_am j1 = some (r2, j2) →
      ∃ st, read_ids_csv P is_am benign [rowA, rowB] = some st ∧
        st.time_format_index = j2) := by
  have hglen : g < timeFormatsLen := hg
  refine ⟨rfl, ?_, ?_, ?_, ?_⟩
  · intro v hv
    rw [str_to_timestamp, if_pos hglen, hv]
  · rw [str_to_timestamp, if_pos hglen]
    cases hpt : P.parseTime (appendHint s is_am) g with
    | some v =>
        constructor
        · intro h; cases h
        · intro hall
          rw [hall g hg] at hpt
          cases hpt
    | none =>
        rw [List.findSome?_eq_none_iff]
        constructor
        · intro hall i hi
          by_cases hig : i = g
          · rw [hig]; exact hpt
          · have := hall i (List.mem_range.mpr hi)
            rw [if_neg hig] at this
            exact Option.map_eq_none'.mp this
        · intro hall i hi
          have hilt : i < 6 := List.mem_range.mp hi
          by_cases hig : i = g
          · rw [if_pos hig]
          · rw [if_neg hig, hall i hilt, Option.map_none']
  · intro i v hgn hi hig hiv hjn
    rw [str_to_timestamp, if_pos hglen, hgn]
    have hsplit := range_split 6 i hi
    rw [show timeFormatsLen = 6 from rfl, hsplit]
    apply findSome?_first
    · intro j hj
      have hjlt : j < i := List.mem_range.mp hj
      by_cases hjg : j = g
      · rw [if_pos hjg]
      · rw [if_neg hjg, hjn j hjlt hjg, Option.map_none']
    · rw [if_neg hig, hiv, Option.map_some']
  · intro benign rowA rowB r1 j1 r2 j2 hA hB hfA hfB
    have h1 : read_step P is_am
        { records := [], label_map := [(benign, 1)], time_format_index := 0, warnings := 0 }
        rowA =
        some { records := [(update_label_and_index_mut [(benign, 1)] r1).2]
             , label_map := (update_label_and_index_mut [(benign, 1)] r1).1
             , time_format_index := j1
             , warnings := 0 } :=
      read_step_parsed P is_am _ rowA r1 j1 hA hfA
    have h2 : read_step P is_am
        { records := [(update_label_and_index_mut [(benign, 1)] r1).2]
        , label_map := (update_label_and_index_mut [(benign, 1)] r1).1
        , time_format_index := j1
        , warnings := 0 } rowB =
        some { records := [(update_label_and_index_mut [(benign, 1)] r1).2,
                 (update_label_and_index_mut (update_label_and_index_mut [(benign, 1)] r1).1 r2).2]
             , label_map := (update_label_and_index_mut
                 (update_label_and_index_mut [(benign, 1)] r1).1 r2).1
             , time_format_index := j2
             , warnings := 0 } :=
      read_step_parsed P is_am _ rowB r2 j2 hB hfB
    refine ⟨{ records := [(update_label_and_index_mut [(benign, 1)] r1).2,
                (update_label_and_index_mut (update_label_and_index_mut [(benign, 1)] r1).1 r2).2]
            , label_map := (update_label_and_index_mut
                (update_label_and_index_mut [(benign, 1)] r1).1 r2).1
            , time_format_index := j2
            , warnings := 0 }, ?_, rfl⟩
    rw [read_ids_csv, foldlM_option_cons_some _ _ _ _ _ h1,
      foldlM_option_cons_some _ _ _ _ _ h2, List.foldlM_nil]
    rfl

/-- Witness for C6: with the guess 0 failing on `"x pm"` (built from the
raw string `"x"` and a PM hint), the scan finds format 4. -/
theorem c6_witness :
    str_to_timestamp c6Parsers "x" (some false) 0 = some (99, 4) := by
  have h := (c6_timestamp_normalizer c6Parsers "x" (some false) 0 (by norm_num)).2.2.2.1
  exact h 4 99 (by decide) (by norm_num) (by norm_num) (by decide)
    (by intro j hj hj0; interval_cases j <;> rfl)

/-! ### Label-map lemmas -/

theorem lookup_eq_none :
    ∀ (m : List (String × Nat)) (k : String),
      lookup m k = none ↔ k ∉ m.map Prod.fst := by
  intro m
  induction m with
  | nil => intro k; simp [lookup]
  | cons p t ih =>
      intro k
      obtain ⟨k', v⟩ := p
      by_cases h : k' = k
      · subst h
        simp [lookup]
      · simp [lookup, h, ih k, Ne.symm h]

theorem lookup_append_left :
    ∀ (m e : List (String × Nat)) (k : String) (v : Nat),
      lookup m k = some v → lookup (m ++ e) k = some v := by
  intro m
  induction m with
  | nil => intro e k v h; cases h
  | cons p t ih =>
      intro e k v h
      obtain ⟨k', v'⟩ := p
      by_cases hk : k' = k
      · rw [lookup, if_pos hk] at h
        rw [List.cons_append, lookup, if_pos hk]
        exact h
      · rw [lookup, if_neg hk] at h
        rw [List.cons_append, lookup, if_neg hk]
        exact ih e k v h

theorem lookup_append_right :
    ∀ (m e : List (String × Nat)) (k : String),
      lookup m k = none → lookup (m ++ e) k = lookup e k := by
  intro m
  induction m with
  | nil => intro e k _; rfl
  | cons p t ih =>
      intro e k h
      obtain ⟨k', v'⟩ := p
      by_cases hk : k' = k
      · rw [lookup, if_pos hk] at h
        cases h
      · rw [lookup, if_neg hk] at h
        rw [List.cons_append, lookup, if_neg hk]
        exact ih e k h

theorem lookup_mem :
    ∀ (m : List (String × Nat)) (k : String) (v : Nat),
      lookup m k = some v → (k, v) ∈ m := by
  intro m
  induction m with
  | nil => intro k v h; cases h
  | cons p t ih =>
      intro k v h
      obtain ⟨k', v'⟩ := p
      by_cases hk : k' = k
      · rw [lookup, if_pos hk] at h
        injection h with h
        subst hk; subst h
        exact List.mem_cons_self _ _
      · rw [lookup, if_neg hk] at h
        exact List.mem_cons_of_mem _ (ih k v h)

theorem update_label_found (m : List (String × Nat)) (cr : CICRecord) (i : Nat)
    (h : lookup m cr.label.name = some i) :
    update_label_and_index_mut m cr =
      (m, { cr with label := { cr.label with index := i } }) := by
  rw [update_label_and_index_mut, h]

theorem update_label_new (m : List (String × Nat)) (cr : CICRecord)
    (h : lookup m cr.label.name = none) :
    update_label_and_index_mut m cr =
      (m ++ [(cr.label.name, (m.length + 1) % 256)],
       { cr with label := { cr.label with index := (m.length + 1) % 256 } }) := by
  rw [update_label_and_index_mut, h]

/-- The stamped record's name-to-index binding is present in the updated
map, the name is unchanged, and the map only grows by appending. -/
theorem update_label_binding (m : List (String × Nat)) (cr : CICRecord) :
    (update_label_and_index_mut m cr).2.label.name = cr.label.name ∧
    lookup (update_label_and_index_mut m cr).1 cr.label.name =
      some (update_label_and_index_mut m cr).2.label.index ∧
    ∃ em, (update_label_and_index_mut m cr).1 = m ++ em := by
  cases hlk : lookup m cr.label.name with
  | some i =>
      rw [update_label_found m cr i hlk]
      exact ⟨rfl, hlk, [], by simp⟩
  | none =>
      rw [update_label_new m cr hlk]
      refine ⟨rfl, ?_, [(cr.label.name, (m.length + 1) % 256)], rfl⟩
      rw [lookup_append_right m _ _ hlk, lookup, if_pos rfl]

/-- Case analysis of one reader-loop iteration that returned a state:
either the row was skipped for its column count (one more warning,
everything else unchanged), or it had 85 columns, parsed successfully,
and was stored with the label machinery applied. -/
theorem read_step_cases (P : Parsers) (is_am : Option Bool) (st0 : ReadState)
    (row : List String) (st1 : ReadState)
    (h : read_step P is_am st0 row = some st1) :
    (row.length ≠ 85 ∧ st1 = { st0 with warnings := st0.warnings + 1 }) ∨
    (row.length = 85 ∧ ∃ r fmt,
      from_ids_csv P row is_am st0.time_format_index = some (r, fmt) ∧
      st1 = { records := st0.records ++ [(update_label_and_index_mut st0.label_map r).2]
            , label_map := (update_label_and_index_mut st0.label_map r).1
            , time_format_index := fmt
            , warnings := st0.warnings }) := by
  by_cases hl : row.length ≠ 85
  · left
    rw [read_step_skip P is_am st0 row hl] at h
    exact ⟨hl, (Option.some_injective _ h).symm⟩
  · right
    have hl85 : row.length = 85 := by omega
    rw [read_step, if_neg hl] at h
    cases hf : from_ids_csv P row is_am st0.time_format_index with
    | none => rw [hf] at h; cases h
    | some rf =>
        obtain ⟨r, fmt⟩ := rf
        rw [hf] at h
        replace h :
            some ({ records := st0.records ++ [(update_label_and_index_mut st0.label_map r).2]
                  , label_map := (update_label_and_index_mut st0.label_map r).1
                  , time_format_index := fmt
                  , warnings := st0.warnings } : ReadState) = some st1 := h
        exact ⟨hl85, r, fmt, rfl, (Option.some_injective _ h).symm⟩

/-- A successful reader run only appends to the record storage and to the
label map. -/
theorem read_run_extends :
    ∀ (rows : List (List String)) (P : Parsers) (is_am : Option Bool) (st0 st : ReadState),
      rows.foldlM (read_step P is_am) st0 = some st →
      ∃ er em, st.records = st0.records ++ er ∧ st.label_map = st0.label_map ++ em := by
  intro rows
  induction rows with
  | nil =>
      intro P is_am st0 st h
      rw [List.foldlM_nil] at h
      injection h with h
      subst h
      exact ⟨[], [], by simp, by simp⟩
  | cons row rest ih =>
      intro P is_am st0 st h
      cases hstep : read_step P is_am st0 row with
      | none =>
          rw [List.foldlM_cons, hstep] at h
          simp at h
      | some st1 =>
          replace h : rest.foldlM (read_step P is_am) st1 = some st := by
            rw [List.foldlM_cons, hstep] at h
            exact h
          obtain ⟨er, em, hr, hm⟩ := ih P is_am st1 st h
          rcases read_step_cases P is_am st0 row st1 hstep with ⟨-, rfl⟩ | ⟨-, r, fmt, -, rfl⟩
          · exact ⟨er, em, hr, hm⟩
          · obtain ⟨-, -, em0, hm0⟩ := update_label_binding st0.label_map r
            refine ⟨(update_label_and_index_mut st0.label_map r).2 :: er, em0 ++ em, ?_, ?_⟩
            · rw [hr]
              simp
            · rw [hm]
              show (update_label_and_index_mut st0.label_map r).1 ++ em = _
              rw [hm0, List.append_assoc]

theorem read_run_map_length_mono (rows : List (List String)) (P : Parsers)
    (is_am : Option Bool) (st0 st : ReadState)
    (h : rows.foldlM (read_step P is_am) st0 = some st) :
    st0.label_map.length ≤ st.label_map.length := by
  obtain ⟨er, em, hr, hm⟩ := read_run_extends rows P is_am st0 st h
  rw [hm, List.length_append]
  omega

/-- Every record stored by a successful reader run has its label's
name-to-index binding present in the final label map. -/
theorem read_run_records_lookup :
    ∀ (rows : List (List String)) (P : Parsers) (is_am : Option Bool) (st0 st : ReadState),
      rows.foldlM (read_step P is_am) st0 = some st →
      (∀ r ∈ st0.records, lookup st0.label_map r.label.name = some r.label.index) →
      ∀ r ∈ st.records, lookup st.label_map r.label.name = some r.label.index := by
  intro rows
  induction rows with
  | nil =>
      intro P is_am st0 st h hinv
      rw [List.foldlM_nil] at h
      injection h with h
      subst h
      exact hinv
  | cons row rest ih =>
      intro P is_am st0 st h hinv
      cases hstep : read_step P is_am st0 row with
      | none =>
          rw [List.foldlM_cons, hstep] at h
          simp at h
      | some st1 =>
          replace h : rest.foldlM (read_step P is_am) st1 = some st := by
            rw [List.foldlM_cons, hstep] at h
            exact h
          refine ih P is_am st1 st h ?_
          rcases read_step_cases P is_am st0 row st1 hstep with ⟨-, rfl⟩ | ⟨-, r, fmt, -, rfl⟩
          · exact hinv
          · obtain ⟨hname, hbind, em0, hm0⟩ := update_label_binding st0.label_map r
            intro x hx
            rcases List.mem_append.mp hx with hx | hx
            · show lookup (update_label_and_index_mut st0.label_map r).1 x.label.name =
                some x.label.index
              rw [hm0]
              exact lookup_append_left _ _ _ _ (hinv x hx)
            · rcases List.mem_singleton.mp hx with rfl
              show lookup (update_label_and_index_mut st0.label_map r).1
                  (update_label_and_index_mut st0.label_map r).2.label.name =
                some (update_label_and_index_mut st0.label_map r).2.label.index
              rw [hname]
              exact hbind

theorem read_step_mapinv (P : Parsers) (is_am : Option Bool) (benign : String)
    (st0 : ReadState) (row : List String) (st1 : ReadState)
    (h : read_step P is_am st0 row = some st1)
    (hinv : MapInv benign st0.label_map)
    (hb : st1.label_map.length ≤ 255) :
    MapInv benign st1.label_map := by
  rcases read_step_cases P is_am st0 row st1 h with ⟨-, rfl⟩ | ⟨-, r, fmt, -, rfl⟩
  · exact hinv
  · show MapInv benign (update_label_and_index_mut st0.label_map r).1
    cases hlk : lookup st0.label_map r.label.name with
    | some i =>
        rw [update_label_found _ _ i hlk]
        exact hinv
    | none =>
        replace hb : ((update_label_and_index_mut st0.label_map r).1).length ≤ 255 := hb
        rw [update_label_new _ _ hlk] at hb ⊢
        simp only [List.length_append, List.length_cons, List.length_nil] at hb
        have hlen : st0.label_map.length + 1 ≤ 255 := by omega
        have hmod : (st0.label_map.length + 1) % 256 = st0.label_map.length + 1 :=
          Nat.mod_eq_of_lt (by omega)
        obtain ⟨hnd, hvals, hhead⟩ := hinv
        refine ⟨?_, ?_, ?_⟩
        · rw [List.map_append, List.nodup_append]
          refine ⟨hnd, by simp, ?_⟩
          simp only [List.map_cons, List.map_nil, List.disjoint_singleton]
          exact (lookup_eq_none _ _).mp hlk
        · rw [List.map_append, hvals, hmod, List.length_append]
          simp only [List.map_cons, List.map_nil, List.length_cons, List.length_nil]
          rw [List.range'_concat]
          simp only [Nat.one_mul, List.append_cancel_left_eq, List.cons.injEq, and_true]
          omega
        · have hne : st0.label_map ≠ [] := by
            intro hnil
            rw [hnil] at hhead
            cases hhead
          rw [List.head?_append, hhead]
          rfl

theorem read_run_mapinv :
    ∀ (rows : List (List String)) (P : Parsers) (is_am : Option Bool) (benign : String)
      (st0 st : ReadState),
      rows.foldlM (read_step P is_am) st0 = some st →
      MapInv benign st0.label_map →
      st.label_map.length ≤ 255 →
      MapInv benign st.label_map := by
  intro rows
  induction rows with
  | nil =>
      intro P is_am benign st0 st h hinv _
      rw [List.foldlM_nil] at h
      injection h with h
      subst h
      exact hinv
  | cons row rest ih =>
      intro P is_am benign st0 st h hinv hb
      cases hstep : read_step P is_am st0 row with
      | none =>
          rw [List.foldlM_cons, hstep] at h
          simp at h
      | some st1 =>
          replace h : rest.foldlM (read_step P is_am) st1 = some st := by
            rw [List.foldlM_cons, hstep] at h
            exact h
          have hb1 : st1.label_map.length ≤ 255 :=
            le_trans (read_run_map_length_mono rest P is_am st1 st h) hb
          exact ih P is_am benign st1 st h
            (read_step_mapinv P is_am benign st0 row st1 hstep hinv hb1) hb

theorem mapinv_lookup_one (benign : String) (m : List (String × Nat))
    (hinv : MapInv benign m) (n : String) :
    lookup m n = some 1 ↔ n = benign := by
  obtain ⟨hnd, hvals, hhead⟩ := hinv
  constructor
  · intro h
    obtain ⟨j, hj, hje⟩ := List.getElem_of_mem (lookup_mem m n 1 h)
    have hjv : j < (List.range' 1 m.length).length := by simpa using hj
    have hjm : j < (m.map Prod.snd).length := by simpa using hj
    have h1 : (m.map Prod.snd)[j] = 1 := by
      rw [List.getElem_map, hje]
    have h2 : (m.map Prod.snd)[j] = 1 + 1 * j := by
      rw [List.getElem_of_eq hvals hjm]
      exact List.getElem_range' j hjv
    have hj0 : j = 0 := by
      have h12 := h1.symm.trans h2
      omega
    subst hj0
    have hm0 : m[0]? = some (benign, 1) := by
      rw [← List.head?_eq_getElem?]
      exact hhead
    rw [List.getElem?_eq_getElem hj] at hm0
    injection hm0 with hm0
    have hnb : (n, 1) = ((benign, 1) : String × Nat) := by rw [← hje, hm0]
    exact congrArg Prod.fst hnb
  · intro h
    cases m with
    | nil => cases hhead
    | cons p t =>
        have hp : p = (benign, 1) := by
          injection hhead
        rw [hp]
        show (if benign = n then some 1 else lookup t n) = some 1
        rw [if_pos h.symm]

/-- C3 (amended): in every completed reader run in which the final label
map has at most 255 entries — i.e. no `u8` wraparound of `(len + 1) as
u8` occurred; the original claim omits this proviso and fails at the
256th distinct label — every stored record's index is its name's binding
in the final map (so repeats of a name always receive its
first-occurrence index), a record has index 1 exactly when its name is
the benign name, the benign binding `(benign, 1)` is the map's first
entry, and the map's values in insertion (= first-seen) order are
exactly `1, 2, ..., N`, so non-benign labels get `2, 3, ...` in
first-seen order, each new one receiving `current_map_size + 1`.
Determinism over reruns is immediate: `read_ids_csv` is a pure
function of its arguments. -/
theorem c3_label_indexing (P : Parsers) (is_am : Option Bool) (benign : String)
    (rows : List (List String)) (st : ReadState)
    (h : read_ids_csv P is_am benign rows = some st)
    (hbound : st.label_map.length ≤ 255) :
    (∀ r ∈ st.records, lookup st.label_map r.label.name = some r.label.index) ∧
    (∀ r ∈ st.records, (r.label.index = 1 ↔ r.label.name = benign)) ∧
    (∀ r1 ∈ st.records, ∀ r2 ∈ st.records,
      r1.label.name = r2.label.name → r1.label.index = r2.label.index) ∧
    st.label_map.map Prod.snd = List.range' 1 st.label_map.length ∧
    st.label_map.head? = some (benign, 1) := by
  have hinit : MapInv benign [(benign, 1)] := ⟨by simp, rfl, rfl⟩
  have hrec := read_run_records_lookup rows P is_am
    { records := [], label_map := [(benign, 1)], time_format_index := 0, warnings := 0 } st h
    (by intro r hr; cases hr)
  have hinv := read_run_mapinv rows P is_am benign
    { records := [], label_map := [(benign, 1)], time_format_index := 0, warnings := 0 } st h
    hinit hbound
  refine ⟨hrec, ?_, ?_, hinv.2.1, hinv.2.2⟩
  · intro r hr
    have hlk := hrec r hr
    constructor
    · intro h1
      rw [h1] at hlk
      exact (mapinv_lookup_one benign st.label_map hinv r.label.name).mp hlk
    · intro hn
      have := (mapinv_lookup_one benign st.label_map hinv r.label.name).mpr hn
      rw [hlk] at this
      injection this
  · intro r1 h1 r2 h2 hname
    have hl1 := hrec r1 h1
    have hl2 := hrec r2 h2
    rw [hname, hl2] at hl1
    injection hl1 with hl1
    exact hl1.symm

theorem lab_inj (i k : Nat) (h : lab i = lab k) : i = k := by
  have h2 : List.replicate (i + 1) 'a' = List.replicate (k + 1) 'a' := congrArg String.data h
  have h3 := congrArg List.length h2
  simp only [List.length_replicate] at h3
  omega

theorem empty_ne_lab (k : Nat) : "" ≠ lab k := by
  intro h
  have h2 : ([] : List Char) = List.replicate (k + 1) 'a' := congrArg String.data h
  have h3 := congrArg List.length h2
  simp at h3

theorem rowU_length (k : Nat) : (rowU k).length = 85 := by
  simp [rowU]

theorem dropWhile_not_ws (c : Char) (h : Char.isWhitespace c = false) (n : Nat) :
    List.dropWhile Char.isWhitespace (List.replicate n c) = List.replicate n c := by
  cases n with
  | zero => rfl
  | succ n =>
      rw [List.replicate_succ, List.dropWhile_cons, h]
      simp

theorem rustTrim_replicate (c : Char) (h : Char.isWhitespace c = false) (n : Nat) :
    rustTrim (String.mk (List.replicate n c)) = String.mk (List.replicate n c) := by
  show String.mk (((List.dropWhile Char.isWhitespace
    (List.replicate n c)).reverse.dropWhile Char.isWhitespace).reverse) = _
  rw [dropWhile_not_ws c h, List.reverse_replicate, dropWhile_not_ws c h,
    List.reverse_replicate]

theorem rustTrim_lab (k : Nat) : rustTrim (lab k) = lab k :=
  rustTrim_replicate 'a' rfl (k + 1)

theorem rustTrim_zero : rustTrim "0" = "0" := rfl

theorem rowU_getD_lt (k j : Nat) (h : j < 84) : (rowU k).getD j "" = "0" := by
  rw [rowU, List.getD_eq_getElem?_getD, List.getElem?_append]
  rw [List.length_replicate]
  rw [if_pos h, List.getElem?_replicate, if_pos h]
  rfl

theorem rowU_getD_84 (k : Nat) : (rowU k).getD 84 "" = lab k := by
  simp [rowU, List.getD, List.getElem?_append]

theorem from_ids_csv_triv (row : List String) :
    from_ids_csv trivParsers row none 0 = some (trivRecord row, 0) := rfl

theorem trivRecord_rowU (k : Nat) :
    trivRecord (rowU k) =
      { uniformRecord k with label := { index := 0, name := lab k } } := by
  simp only [trivRecord, rowU_getD_lt k 1 (by norm_num), rowU_getD_lt k 3 (by norm_num),
    rowU_getD_84, rustTrim_lab, rustTrim_zero]
  rfl

theorem lookup_uniformMap (k : Nat) : lookup (uniformMap k) (lab k) = none := by
  show (if "" = lab k then some 1 else lookup _ (lab k)) = none
  rw [if_neg (empty_ne_lab k), lookup_eq_none]
  intro hmem
  rw [List.map_map] at hmem
  obtain ⟨i, hi, he⟩ := List.mem_map.mp hmem
  have hik := lab_inj i k (by simpa using he)
  have := List.mem_range.mp hi
  omega

theorem uniformMap_length (k : Nat) : (uniformMap k).length = k + 1 := by
  simp [uniformMap]

theorem read_step_uniform (k : Nat) :
    read_step trivParsers none (uniformState k) (rowU k) = some (uniformState (k + 1)) := by
  have hupd : update_label_and_index_mut (uniformState k).label_map (trivRecord (rowU k)) =
      (uniformMap k ++ [(lab k, (k + 2) % 256)], uniformRecord k) := by
    show update_label_and_index_mut (uniformMap k) (trivRecord (rowU k)) = _
    rw [trivRecord_rowU]
    have hlk : lookup (uniformMap k)
        ({ uniformRecord k with
           label := { index := 0, name := lab k } } : CICRecord).label.name = none :=
      lookup_uniformMap k
    rw [update_label_new _ _ hlk, uniformMap_length]
    rfl
  have h := read_step_parsed trivParsers none (uniformState k) (rowU k)
    (trivRecord (rowU k)) 0 (rowU_length k) (from_ids_csv_triv (rowU k))
  rw [h, hupd]
  have hrecs : (List.range k).map uniformRecord ++ [uniformRecord k] =
      (List.range (k + 1)).map uniformRecord := by
    rw [List.range_succ, List.map_append]
    rfl
  have hmap : uniformMap k ++ [(lab k, (k + 2) % 256)] = uniformMap (k + 1) := by
    show (("", 1) :: (List.range k).map (fun i => (lab i, (i + 2) % 256))) ++ _ = _
    rw [uniformMap, List.range_succ, List.map_append]
    rfl
  show some ({ records := (List.range k).map uniformRecord ++ [uniformRecord k]
             , label_map := uniformMap k ++ [(lab k, (k + 2) % 256)]
             , time_format_index := 0
             , warnings := 0 } : ReadState) = _
  rw [hrecs, hmap]
  rfl

theorem read_run_uniform :
    ∀ (n k : Nat),
      ((List.range' k n).map rowU).foldlM (read_step trivParsers none) (uniformState k) =
        some (uniformState (k + n)) := by
  intro n
  induction n with
  | zero => intro k; rfl
  | succ n ih =>
      intro k
      rw [List.range'_succ, List.map_cons,
        foldlM_option_cons_some _ _ _ _ _ (read_step_uniform k),
        show k + (n + 1) = k + 1 + n from by omega]
      exact ih (k + 1)

set_option maxRecDepth 100000 in
/-- Counterexample to C3 as stated: running the reader on 255 valid rows
carrying 255 distinct non-benign label names (the benign binding seeds
the map, so the last insertion happens at `current_map_size = 255`), the
255th record receives label index `(255 + 1) as u8 = 0` — not
`current_map_size + 1 = 256`, and not an element of `{2, 3, ...}` — and
the final map holds 256 entries. -/
theorem c3_counterexample :
    ∃ st, read_ids_csv trivParsers none "" rows255 = some st ∧
      st.records.length = 255 ∧
      (st.records[254]?).map (fun r => r.label.index) = some 0 ∧
      st.label_map.length = 256 ∧
      (0 : Nat) ≠ 255 + 1 := by
  refine ⟨uniformState 255, ?_, ?_, ?_, ?_, by norm_num⟩
  · show List.foldlM (read_step trivParsers none)
      { records := [], label_map := [("", 1)], time_format_index := 0, warnings := 0 }
      ((List.range 255).map rowU) = some (uniformState 255)
    rw [List.range_eq_range']
    show List.foldlM (read_step trivParsers none) (uniformState 0)
      ((List.range' 0 255).map rowU) = some (uniformState 255)
    rw [read_run_uniform 255 0]
  · show ((List.range 255).map uniformRecord).length = 255
    simp
  · show (((List.range 255).map uniformRecord)[254]?).map (fun r => r.label.index) = some 0
    rw [List.getElem?_map, List.getElem?_range (by norm_num)]
    rfl
  · show (uniformMap 255).length = 256
    simp [uniformMap]

/-- Witness for C3 (amended) at a concrete two-row run: benign name
`"7"`, second row introducing label `"A"`; the final map's values are
dense in first-seen order. -/
theorem c3_witness :
    ∃ st, read_ids_csv trivParsers none "7"
        [List.replicate 85 "7", List.replicate 84 "7" ++ ["A"]] = some st ∧
      st.label_map.map Prod.snd = List.range' 1 st.label_map.length ∧
      st.label_map.head? = some ("7", 1) := by
  have hs : (read_ids_csv trivParsers none "7"
      [List.replicate 85 "7", List.replicate 84 "7" ++ ["A"]]).isSome = true := by rfl
  obtain ⟨st, hrun⟩ := Option.isSome_iff_exists.mp hs
  have hlen : (read_ids_csv trivParsers none "7"
      [List.replicate 85 "7", List.replicate 84 "7" ++ ["A"]]).map
      (fun st => st.label_map.length) = some 2 := by rfl
  rw [hrun] at hlen
  injection hlen with hlen
  replace hlen : st.label_map.length = 2 := hlen
  have h := c3_label_indexing trivParsers none "7"
    [List.replicate 85 "7", List.replicate 84 "7" ++ ["A"]] st hrun (by omega)
  exact ⟨st, hrun, h.2.2.2.1, h.2.2.2.2⟩

/-- C7: a CSV row whose column count is not 85 is skipped entirely with
exactly one warning: it contributes no record, leaves the label map and
the sticky format index untouched, and the run continues on the
remaining rows instead of aborting; a row with exactly 85 columns is
parsed and, when parsing succeeds, stored without a warning. -/
theorem c7_malformed_row_skip (P : Parsers) (is_am : Option Bool) (st : ReadState)
    (row : List String) (rows : List (List String)) :
    (row.length ≠ 85 →
      read_step P is_am st row = some { st with warnings := st.warnings + 1 } ∧
      (row :: rows).foldlM (read_step P is_am) st =
        rows.foldlM (read_step P is_am) { st with warnings := st.warnings + 1 }) ∧
    (row.length = 85 →
      ∀ r fmt, from_ids_csv P row is_am st.time_format_index = some (r, fmt) →
        ∃ st', read_step P is_am st row = some st' ∧
          st'.records.length = st.records.length + 1 ∧
          st'.warnings = st.warnings ∧
          st'.time_format_index = fmt) := by
  constructor
  · intro h
    exact ⟨read_step_skip P is_am st row h,
      foldlM_option_cons_some _ _ _ _ _ (read_step_skip P is_am st row h)⟩
  · intro h r fmt hf
    refine ⟨_, read_step_parsed P is_am st row r fmt h hf, ?_, rfl, rfl⟩
    simp

/-- Witness for C7: an 84-column row is skipped by a fresh reader state
with exactly one warning and no other change. -/
theorem c7_witness :
    read_step trivParsers none
      { records := [], label_map := [("BENIGN", 1)], time_format_index := 0, warnings := 0 }
      (List.replicate 84 "x") =
      some { records := [], label_map := [("BENIGN", 1)], time_format_index := 0
           , warnings := 1 } := by
  have h := (c7_malformed_row_skip trivParsers none
    { records := [], label_map := [("BENIGN", 1)], time_format_index := 0, warnings := 0 }
    (List.replicate 84 "x") []).1 (by decide)
  exact h.1

/-- C8: a kept 85-column row is decoded by `from_ids_csv` from exactly
the columns the spec lists: source IP from column 1 (trimmed), source
port from 2, destination IP from 3 (trimmed), destination port from 4,
protocol from 5, timestamp from 6 (trimmed), duration in microseconds
from 7, forward packets as the sum of columns 8 and 40, backward packets
as the sum of 9 and 41, byte counts from 10 and 11 (counts parsed as
`f32` then truncated to `i32` by the abstracted float parser), and the
label name from column 84 (trimmed) with a fresh index 0. -/
theorem c8_column_wiring (P : Parsers) (row : List String) (is_am : Option Bool)
    (g : Nat) (r : CICRecord) (fmt : Nat)
    (h : from_ids_csv P row is_am g = some (r, fmt)) :
    r.src_ip = rustTrim (row.getD 1 "") ∧
    P.parseU32 (row.getD 2 "") = some r.src_port ∧
    r.dst_ip = rustTrim (row.getD 3 "") ∧
    P.parseU32 (row.getD 4 "") = some r.dst_port ∧
    P.parseU8 (row.getD 5 "") = some r.protocol ∧
    str_to_timestamp P (rustTrim (row.getD 6 "")) is_am g = some (r.timestamp.time, fmt) ∧
    P.parseI64 (row.getD 7 "") = some r.duration ∧
    (∃ a b, P.parseF32asI32 (row.getD 8 "") = some a ∧
      P.parseF32asI32 (row.getD 40 "") = some b ∧ r.n_packet.1 = a + b) ∧
    (∃ a b, P.parseF32asI32 (row.getD 9 "") = some a ∧
      P.parseF32asI32 (row.getD 41 "") = some b ∧ r.n_packet.2 = a + b) ∧
    P.parseF32asI32 (row.getD 10 "") = some r.n_bytes_packet.1 ∧
    P.parseF32asI32 (row.getD 11 "") = some r.n_bytes_packet.2 ∧
    r.label.name = rustTrim (row.getD 84 "") ∧
    r.label.index = 0 := by
  simp only [from_ids_csv, str_sum_i32, bind, Option.bind_eq_some, Option.pure_def,
    Option.some.injEq, Prod.mk.injEq] at h
  obtain ⟨ts, hts, sp, hsp, dp, hdp, proto, hproto, dur, hdur, pf, ⟨a8, ha8, a40, ha40, hpf⟩,
    pb, ⟨a9, ha9, a41, ha41, hpb⟩, b10, hb10, b11, hb11, hrec, hfmt⟩ := h
  subst hfmt
  rw [← hrec]
  refine ⟨rfl, by rw [hsp], rfl, by rw [hdp], by rw [hproto], ?_, by rw [hdur],
    ⟨a8, a40, ha8, ha40, by rw [← hpf]⟩, ⟨a9, a41, ha9, ha41, by rw [← hpb]⟩,
    by rw [hb10], by rw [hb11], rfl, rfl⟩
  exact hts

/-- Witness for C8 at a concrete 85-column row of `"7"` cells. -/
theorem c8_witness :
    from_ids_csv trivParsers (List.replicate 85 "7") none 0 = some (c8Record, 0) ∧
    c8Record.src_ip = rustTrim ((List.replicate 85 "7").getD 1 "") ∧
    c8Record.label.name = rustTrim ((List.replicate 85 "7").getD 84 "") := by
  have hrun : from_ids_csv trivParsers (List.replicate 85 "7") none 0 = some (c8Record, 0) := by
    rfl
  have h := c8_column_wiring trivParsers (List.replicate 85 "7") none 0 c8Record 0 hrun
  exact ⟨hrun, h.1, h.2.2.2.2.2.2.2.2.2.2.2.1⟩

/-- C9: a new label's index is `(label_map.len() + 1)` cast to `u8`,
i.e. reduced modulo 256, so at map size 255 the next distinct name
receives index 0; for runs whose final map has at most 255 entries all
assigned indices are distinct values in `1..=255`; and an index-0 record
breaks `categorize_nf`, whose group selection `(index - 1) as usize`
underflows (a panic in debug builds, an out-of-range group in release
builds for any library of at most 255 labels), modelled as failure. -/
theorem c9_u8_wraparound (m : List (String × Nat)) (r : CICRecord)
    (hnew : lookup m r.label.name = none) :
    (update_label_and_index_mut m r).2.label.index = (m.length + 1) % 256 ∧
    (m.length = 255 → (update_label_and_index_mut m r).2.label.index = 0) ∧
    (∀ P is_am benign rows st, read_ids_csv P is_am benign rows = some st →
      st.label_map.length ≤ 255 →
      (st.label_map.map Prod.snd).Nodup ∧
      ∀ v ∈ st.label_map.map Prod.snd, 1 ≤ v ∧ v ≤ 255) ∧
    (∀ nf lib, nf.label.index = 0 → categorize_nf [nf] lib = none) := by
  refine ⟨?_, ?_, ?_, ?_⟩
  · rw [update_label_new m r hnew]
  · intro h255
    rw [update_label_new m r hnew, h255]
  · intro P is_am benign rows st h hbound
    have hinit : MapInv benign [(benign, 1)] := by
      refine ⟨by simp, ?_, rfl⟩
      rfl
    have hinv := read_run_mapinv rows P is_am benign
      { records := [], label_map := [(benign, 1)], time_format_index := 0, warnings := 0 } st h
      hinit hbound
    rw [hinv.2.1]
    constructor
    · exact List.nodup_range' _ _
    · intro v hv
      have := List.mem_range'_1.mp hv
      omega
  · intro nf lib h0
    rw [categorize_nf, List.foldlM_cons, categorize_step, if_pos h0]
    rfl

set_option maxRecDepth 1000000 in
/-- Witness for C9: inserting a fresh name into a 255-entry map yields
index 0, and a record with index 0 makes categorization fail. -/
theorem c9_witness :
    lookup m255 "zz" = none ∧
    (update_label_and_index_mut m255
      { sampleRecord with label := { index := 0, name := "zz" } }).2.label.index = 0 ∧
    categorize_nf
      [{ (netflow_new sampleRecord).1 with label := { index := 0, name := "zz" } }] [] =
      none := by
  have h := c9_u8_wraparound m255
    { sampleRecord with label := { index := 0, name := "zz" } } (by rfl)
  refine ⟨by rfl, h.2.1 (by rfl), ?_⟩
  exact h.2.2.2 _ [] rfl

end Cic2nf
